import Mathlib

/-!
Verification of the romanizer repository's core pipeline.

The Python source (romanizer.py, RomanizerGUI.py) is embedded shallowly:
strings are Lean `String` (a wrapper around `List Char`), the sanitizer,
tokenizer, style formatter, conversion pipeline, uniqueness resolver and
batch driver are translated function by function.  External primitives
that live outside the repository (unicodedata.normalize("NFKC", ·),
pypinyin.lazy_pinyin, pykakasi's hepburn conversion) are taken as
function parameters, so theorems quantify over every possible behaviour
of those libraries unless a claim pins a concrete property of them.
-/

/-! ### Sanitizer (romanizer.py, `safe_filename_stem`, lines 81-126)

The Python function takes a replacement *string*; every call site in the
repository uses the default `"_"`, and the claims are stated for that
default, so the embedding takes a replacement `Char` (faithful for all
single-character replacements).
-/

/-- Membership in the character class of `re.compile(r'[<>:"/\\|?*\x00-\x1f]')`
(romanizer.py line 103): the nine Windows-illegal punctuation characters or a
control character (code points 0x00-0x1f). -/
def illegalChar (c : Char) : Bool :=
  ['<', '>', ':', '"', '/', '\\', '|', '?', '*'].contains c || decide (c.toNat ≤ 0x1f)

/-- Step 2 of `safe_filename_stem`: `illegal_chars_re.sub(replacement, stem)`,
replacing every illegal character by the replacement. -/
def substIllegal (repl : Char) (cs : List Char) : List Char :=
  cs.map (fun c => if illegalChar c then repl else c)

/-- The `reserved_names` set of romanizer.py lines 108-112. -/
def reservedNames : List String :=
  ["CON", "PRN", "AUX", "NUL",
   "COM1", "COM2", "COM3", "COM4", "COM5", "COM6", "COM7", "COM8", "COM9",
   "LPT1", "LPT2", "LPT3", "LPT4", "LPT5", "LPT6", "LPT7", "LPT8", "LPT9"]

/-- Step 3 of `safe_filename_stem`: `if stem.upper() in reserved_names: stem += "_"`.
Python's `str.upper()` is modelled per character with `Char.toUpper`; the
comparison set is pure ASCII, for which this agrees with Python.  Note the
source appends the literal `"_"`, not the replacement. -/
def reservedStep (cs : List Char) : List Char :=
  if String.mk (cs.map Char.toUpper) ∈ reservedNames then cs ++ ['_'] else cs

/-- Python `str.lstrip(chars)`: drop leading characters belonging to the set. -/
def lstripSet (set : List Char) (cs : List Char) : List Char :=
  cs.dropWhile (fun c => set.contains c)

/-- Python `str.rstrip(chars)`: drop trailing characters belonging to the set. -/
def rstripSet (set : List Char) (cs : List Char) : List Char :=
  (lstripSet set cs.reverse).reverse

/-- Step 4 of `safe_filename_stem`: `stem.strip(' .' + replacement)`. -/
def pyStrip (set : List Char) (cs : List Char) : List Char :=
  rstripSet set (lstripSet set cs)

/-- Step 5 of `safe_filename_stem`: `re.sub(f'{replacement_escaped}+', replacement, stem)`,
collapsing every run of consecutive replacement characters to a single one. -/
def collapseRepl (repl : Char) : List Char → List Char
  | [] => []
  | [c] => [c]
  | c :: d :: rest =>
    if c = repl then
      if d = repl then collapseRepl repl (d :: rest)
      else c :: collapseRepl repl (d :: rest)
    else c :: collapseRepl repl (d :: rest)

/-- Steps 2-5 of `safe_filename_stem` (everything after NFKC normalization and
before the `or "untitled"` fallback), on the character list. -/
def sanitizeCoreData (repl : Char) (cs : List Char) : List Char :=
  collapseRepl repl (pyStrip [' ', '.', repl] (reservedStep (substIllegal repl cs)))

/-- romanizer.py `safe_filename_stem(stem, replacement)` for a single-character
replacement.  The external `unicodedata.normalize("NFKC", ·)` primitive is the
parameter `nfkc`; the remaining steps are `sanitizeCoreData` followed by the
`return stem or "untitled"` fallback of line 126. -/
def safe_filename_stem (nfkc : String → String) (repl : Char) (stem : String) : String :=
  if (sanitizeCoreData repl (nfkc stem).data).isEmpty then "untitled"
  else String.mk (sanitizeCoreData repl (nfkc stem).data)

/-- C1: the reserved-name suffix does not survive stripping.  For every reserved
device name, `safe_filename_stem` with the default replacement returns the name
unchanged: step 3 appends `"_"`, but step 4 strips `' .' + '_'` from both ends
and removes it again.  NFKC is the identity on these ASCII inputs, so it is
instantiated with `id`.  This contradicts the documented purpose of step 3
(romanizer.py lines 88, 106-114), so the code, not the claim, is at fault. -/
theorem reserved_names_not_disambiguated :
    safe_filename_stem id '_' "CON" = "CON" ∧
    (reservedNames.all (fun n => safe_filename_stem id '_' n == n)) = true := by
  constructor
  · decide
  · decide

/-! ### Sanitizer lemmas -/

/-- Characters of the collapsed list come from the input. -/
theorem mem_collapseRepl (r : Char) (cs : List Char) :
    ∀ c ∈ collapseRepl r cs, c ∈ cs := by
  induction cs using collapseRepl.induct r with
  | case1 => simp [collapseRepl]
  | case2 c => simp [collapseRepl]
  | case3 rest ih =>
    intro x hx
    rw [collapseRepl, if_pos rfl, if_pos rfl] at hx
    exact List.mem_cons_of_mem _ (ih x hx)
  | case4 d rest h ih =>
    intro x hx
    rw [collapseRepl, if_pos rfl, if_neg h] at hx
    rcases List.mem_cons.mp hx with hx | hx
    · exact hx ▸ List.mem_cons_self _ _
    · exact List.mem_cons_of_mem _ (ih x hx)
  | case5 c d rest h ih =>
    intro x hx
    rw [collapseRepl, if_neg h] at hx
    rcases List.mem_cons.mp hx with hx | hx
    · exact hx ▸ List.mem_cons_self _ _
    · exact List.mem_cons_of_mem _ (ih x hx)

/-- Characters surviving the strip come from the input. -/
theorem mem_pyStrip (set cs : List Char) : ∀ c ∈ pyStrip set cs, c ∈ cs := by
  intro c hc
  unfold pyStrip rstripSet lstripSet at hc
  have := List.mem_reverse.mp hc
  have := List.dropWhile_subset _ this
  have := List.mem_reverse.mp this
  exact List.dropWhile_subset _ this

/-- The reserved-name step only ever adds an underscore. -/
theorem mem_reservedStep (cs : List Char) :
    ∀ c ∈ reservedStep cs, c ∈ cs ∨ c = '_' := by
  intro c hc
  unfold reservedStep at hc
  split at hc
  · rcases List.mem_append.mp hc with h | h
    · exact Or.inl h
    · simp only [List.mem_singleton] at h
      exact Or.inr h
  · exact Or.inl hc

/-- After substitution, every character is the replacement or a legal original. -/
theorem mem_substIllegal (r : Char) (cs : List Char) :
    ∀ c ∈ substIllegal r cs, c = r ∨ illegalChar c = false := by
  intro c hc
  unfold substIllegal at hc
  obtain ⟨a, _, ha⟩ := List.mem_map.mp hc
  by_cases h : illegalChar a
  · rw [if_pos h] at ha
    exact Or.inl ha.symm
  · rw [if_neg h] at ha
    exact Or.inr (ha ▸ Bool.of_not_eq_true h)

/-- No illegal character (and in particular no control character) survives the
sanitizing core with the default replacement. -/
theorem sanitizeCoreData_no_illegal (cs : List Char) :
    ∀ c ∈ sanitizeCoreData '_' cs, illegalChar c = false := by
  intro c hc
  unfold sanitizeCoreData at hc
  have hc1 := mem_collapseRepl _ _ _ hc
  have hc2 := mem_pyStrip _ _ _ hc1
  rcases mem_reservedStep _ _ hc2 with hc3 | hc3
  · rcases mem_substIllegal _ _ _ hc3 with h | h
    · subst h; decide
    · exact h
  · subst hc3; decide

/-- C4: the sanitized stem contains none of the characters forbidden by the
illegal-character class, for every behaviour of the external NFKC primitive and
every input string; the `"untitled"` fallback branch is included. -/
theorem sanitize_legal (nfkc : String → String) (s : String) :
    (safe_filename_stem nfkc '_' s).data.all (fun c => !(illegalChar c)) = true := by
  rw [List.all_eq_true]
  intro c hc
  unfold safe_filename_stem at hc
  split at hc
  · have h : ∀ x ∈ "untitled".data, (!illegalChar x) = true := by decide
    exact h c hc
  · simp [sanitizeCoreData_no_illegal _ _ hc]

/-- The first element surviving `dropWhile` fails the predicate. -/
theorem head?_dropWhile_not (p : Char → Bool) (cs : List Char) :
    ∀ c, (cs.dropWhile p).head? = some c → p c = false := by
  induction cs with
  | nil => intro c h; simp [List.dropWhile] at h
  | cons a rest ih =>
    intro c h
    by_cases hp : p a
    · rw [List.dropWhile_cons, if_pos hp] at h
      exact ih c h
    · rw [List.dropWhile_cons, if_neg hp] at h
      simp only [List.head?_cons, Option.some.injEq] at h
      exact h ▸ Bool.of_not_eq_true hp

/-- A list whose head fails the predicate is untouched by `dropWhile`. -/
theorem dropWhile_eq_self_of_head (p : Char → Bool) (cs : List Char)
    (h : ∀ c, cs.head? = some c → p c = false) : cs.dropWhile p = cs := by
  cases cs with
  | nil => rfl
  | cons a rest =>
    rw [List.dropWhile_cons, if_neg]
    simp [h a rfl]

/-- The last element surviving the two-sided strip is outside the strip set. -/
theorem pyStrip_getLast_not (set cs : List Char) :
    ∀ c, (pyStrip set cs).getLast? = some c → set.contains c = false := by
  intro c h
  unfold pyStrip rstripSet at h
  rw [List.getLast?_reverse] at h
  exact head?_dropWhile_not _ _ c h

/-- The two-sided strip produces a prefix of its (left-stripped) input. -/
theorem rstripSet_prefix (set cs : List Char) : rstripSet set cs <+: cs := by
  unfold rstripSet lstripSet
  have h := List.dropWhile_suffix (l := cs.reverse) (fun c => set.contains c)
  have := List.reverse_prefix.mpr h
  simpa using this

/-- The head element surviving the two-sided strip is outside the strip set. -/
theorem pyStrip_head_not (set cs : List Char) :
    ∀ c, (pyStrip set cs).head? = some c → set.contains c = false := by
  intro c h
  unfold pyStrip at h
  obtain ⟨t, ht⟩ := rstripSet_prefix set (lstripSet set cs)
  have hne : rstripSet set (lstripSet set cs) ≠ [] := by
    intro hnil; rw [hnil] at h; simp at h
  have hhead : (lstripSet set cs).head? = some c := by
    rw [← ht]
    cases hr : rstripSet set (lstripSet set cs) with
    | nil => exact absurd hr hne
    | cons a r' =>
      rw [hr] at h
      simp only [List.head?_cons, Option.some.injEq] at h
      simp [h]
  exact head?_dropWhile_not _ _ c hhead

/-- Collapsing never empties a nonempty list. -/
theorem collapseRepl_ne_nil (r : Char) (cs : List Char) (h : cs ≠ []) :
    collapseRepl r cs ≠ [] := by
  induction cs using collapseRepl.induct r with
  | case1 => exact absurd rfl h
  | case2 c => simp [collapseRepl]
  | case3 rest ih =>
    rw [collapseRepl, if_pos rfl, if_pos rfl]
    exact ih (List.cons_ne_nil _ _)
  | case4 d rest hd ih =>
    rw [collapseRepl, if_pos rfl, if_neg hd]
    exact List.cons_ne_nil _ _
  | case5 c d rest hc ih =>
    rw [collapseRepl, if_neg hc]
    exact List.cons_ne_nil _ _

/-- Collapsing a list headed by a non-replacement character keeps its head. -/
theorem head?_collapseRepl_of_ne (r d : Char) (rest : List Char) (hd : ¬d = r) :
    (collapseRepl r (d :: rest)).head? = some d := by
  cases rest with
  | nil => rfl
  | cons e rest' =>
    rw [collapseRepl, if_neg hd]
    rfl

/-- For a nonempty tail, `getLast?` skips the head. -/
theorem getLast?_cons_of_ne_nil (a : Char) (xs : List Char) (h : xs ≠ []) :
    (a :: xs).getLast? = xs.getLast? := by
  cases xs with
  | nil => exact absurd rfl h
  | cons b ys => exact List.getLast?_cons_cons

/-- Collapsing preserves the last element. -/
theorem getLast?_collapseRepl (r : Char) (cs : List Char) :
    (collapseRepl r cs).getLast? = cs.getLast? := by
  induction cs using collapseRepl.induct r with
  | case1 => rfl
  | case2 c => rfl
  | case3 rest ih =>
    rw [collapseRepl, if_pos rfl, if_pos rfl, ih, List.getLast?_cons_cons]
  | case4 d rest hd ih =>
    rw [collapseRepl, if_pos rfl, if_neg hd,
      getLast?_cons_of_ne_nil _ _ (collapseRepl_ne_nil r _ (List.cons_ne_nil _ _)), ih,
      List.getLast?_cons_cons]
  | case5 c d rest hc ih =>
    rw [collapseRepl, if_neg hc,
      getLast?_cons_of_ne_nil _ _ (collapseRepl_ne_nil r _ (List.cons_ne_nil _ _)), ih,
      List.getLast?_cons_cons]

/-- Absence of two adjacent replacement characters, the invariant established
by the collapsing step. -/
def noAdj (r : Char) : List Char → Bool
  | [] => true
  | [_] => true
  | c :: d :: rest => !(c == r && d == r) && noAdj r (d :: rest)

/-- The collapsed list has no adjacent replacement characters. -/
theorem noAdj_collapseRepl (r : Char) (cs : List Char) :
    noAdj r (collapseRepl r cs) = true := by
  induction cs using collapseRepl.induct r with
  | case1 => rfl
  | case2 c => rfl
  | case3 rest ih =>
    rw [collapseRepl, if_pos rfl, if_pos rfl]
    exact ih
  | case4 d rest hd ih =>
    rw [collapseRepl, if_pos rfl, if_neg hd]
    cases hX : collapseRepl r (d :: rest) with
    | nil => rfl
    | cons x Y =>
      have hx : x = d := by
        have := head?_collapseRepl_of_ne r d rest hd
        rw [hX] at this
        simpa using this
      rw [noAdj]
      have hxr : (x == r) = false := by
        rw [hx]
        exact beq_eq_false_iff_ne.mpr hd
      rw [hX] at ih
      simp [hxr, ih]
  | case5 c d rest hc ih =>
    rw [collapseRepl, if_neg hc]
    cases hX : collapseRepl r (d :: rest) with
    | nil => rfl
    | cons x Y =>
      have hcr : (c == r) = false := beq_eq_false_iff_ne.mpr hc
      rw [noAdj]
      rw [hX] at ih
      simp [hcr, ih]

/-- A list with no adjacent replacement characters is a fixed point of the
collapsing step. -/
theorem collapseRepl_eq_self (r : Char) (cs : List Char) (h : noAdj r cs = true) :
    collapseRepl r cs = cs := by
  induction cs using collapseRepl.induct r with
  | case1 => rfl
  | case2 c => rfl
  | case3 rest ih => simp [noAdj] at h
  | case4 d rest hd ih =>
    rw [noAdj, Bool.and_eq_true] at h
    rw [collapseRepl, if_pos rfl, if_neg hd, ih h.2]
  | case5 c d rest hc ih =>
    rw [noAdj, Bool.and_eq_true] at h
    rw [collapseRepl, if_neg hc, ih h.2]

/-- A list of legal characters is a fixed point of the substitution step. -/
theorem substIllegal_eq_self (r : Char) (cs : List Char)
    (h : ∀ c ∈ cs, illegalChar c = false) : substIllegal r cs = cs := by
  unfold substIllegal
  induction cs with
  | nil => rfl
  | cons a t ih =>
    rw [List.map_cons, if_neg (by simp [h a (List.mem_cons_self a t)]),
      ih (fun c hc => h c (List.mem_cons_of_mem a hc))]

/-- A list whose first and last characters avoid the strip set is a fixed
point of the two-sided strip. -/
theorem pyStrip_eq_self (set cs : List Char)
    (hh : ∀ c, cs.head? = some c → set.contains c = false)
    (hl : ∀ c, cs.getLast? = some c → set.contains c = false) :
    pyStrip set cs = cs := by
  have h1 : cs.dropWhile (fun c => set.contains c) = cs :=
    dropWhile_eq_self_of_head _ cs hh
  have h2 : cs.reverse.dropWhile (fun c => set.contains c) = cs.reverse :=
    dropWhile_eq_self_of_head _ cs.reverse (fun c h => hl c (by simpa using h))
  unfold pyStrip rstripSet lstripSet
  rw [h1, h2]
  exact List.reverse_reverse cs

/-- Appending one underscore to a strip-clean nonempty list and stripping
removes exactly that underscore: the reserved-name suffix cannot survive. -/
theorem pyStrip_append_underscore (set cs : List Char)
    (hset : set.contains '_' = true) (hne : cs ≠ [])
    (hh : ∀ c, cs.head? = some c → set.contains c = false)
    (hl : ∀ c, cs.getLast? = some c → set.contains c = false) :
    pyStrip set (cs ++ ['_']) = cs := by
  have h1 : (cs ++ ['_']).dropWhile (fun c => set.contains c) = cs ++ ['_'] := by
    refine dropWhile_eq_self_of_head _ _ ?_
    intro c h
    cases cs with
    | nil => exact absurd rfl hne
    | cons a t =>
      rw [List.cons_append] at h
      simp only [List.head?_cons, Option.some.injEq] at h
      exact hh c (by simp [h])
  have h2 : cs.reverse.dropWhile (fun c => set.contains c) = cs.reverse :=
    dropWhile_eq_self_of_head _ cs.reverse (fun c h => hl c (by simpa using h))
  unfold pyStrip rstripSet lstripSet
  rw [h1, List.reverse_append]
  show ((('_' :: cs.reverse).dropWhile fun c => set.contains c)).reverse = cs
  rw [List.dropWhile_cons, if_pos hset, h2]
  exact List.reverse_reverse cs

/-- The sanitized core never starts with a strip-set character. -/
theorem sanitizeCoreData_head_not (cs : List Char) :
    ∀ c, (sanitizeCoreData '_' cs).head? = some c →
      (([' ', '.', '_'] : List Char).contains c) = false := by
  intro c h
  unfold sanitizeCoreData at h
  cases hz : pyStrip [' ', '.', '_'] (reservedStep (substIllegal '_' cs)) with
  | nil => rw [hz] at h; simp [collapseRepl] at h
  | cons d z' =>
    have hd : ([' ', '.', '_'] : List Char).contains d = false := by
      refine pyStrip_head_not _ (reservedStep (substIllegal '_' cs)) d ?_
      rw [hz]; rfl
    have hdu : ¬d = '_' := by
      intro he; rw [he] at hd; exact absurd hd (by decide)
    rw [hz, head?_collapseRepl_of_ne _ _ _ hdu] at h
    simp only [Option.some.injEq] at h
    rw [← h]; exact hd

/-- The sanitized core never ends with a strip-set character. -/
theorem sanitizeCoreData_getLast_not (cs : List Char) :
    ∀ c, (sanitizeCoreData '_' cs).getLast? = some c →
      (([' ', '.', '_'] : List Char).contains c) = false := by
  intro c h
  unfold sanitizeCoreData at h
  rw [getLast?_collapseRepl] at h
  exact pyStrip_getLast_not _ _ c h

/-- The sanitized core has no adjacent replacement characters. -/
theorem noAdj_sanitizeCoreData (cs : List Char) :
    noAdj '_' (sanitizeCoreData '_' cs) = true := by
  unfold sanitizeCoreData
  exact noAdj_collapseRepl _ _

/-- The sanitizing core is idempotent: running steps 2-5 a second time changes
nothing.  Note this also holds on reserved names such as "CON", because both
runs append the underscore and immediately strip it again. -/
theorem sanitizeCoreData_idem (cs : List Char) :
    sanitizeCoreData '_' (sanitizeCoreData '_' cs) = sanitizeCoreData '_' cs := by
  have h1 : substIllegal '_' (sanitizeCoreData '_' cs) = sanitizeCoreData '_' cs :=
    substIllegal_eq_self _ _ (sanitizeCoreData_no_illegal cs)
  have hcollapse : collapseRepl '_' (sanitizeCoreData '_' cs) = sanitizeCoreData '_' cs :=
    collapseRepl_eq_self _ _ (noAdj_sanitizeCoreData cs)
  by_cases hres :
      String.mk ((sanitizeCoreData '_' cs).map Char.toUpper) ∈ reservedNames
  · have hne : sanitizeCoreData '_' cs ≠ [] := by
      intro hnil
      rw [hnil] at hres
      exact absurd hres (by decide)
    have h2 : reservedStep (sanitizeCoreData '_' cs) = sanitizeCoreData '_' cs ++ ['_'] := by
      unfold reservedStep; rw [if_pos hres]
    have h3 : pyStrip [' ', '.', '_'] (sanitizeCoreData '_' cs ++ ['_']) =
        sanitizeCoreData '_' cs :=
      pyStrip_append_underscore _ _ (by decide) hne
        (sanitizeCoreData_head_not cs) (sanitizeCoreData_getLast_not cs)
    have hstep : sanitizeCoreData '_' (sanitizeCoreData '_' cs) =
        collapseRepl '_' (pyStrip [' ', '.', '_']
          (reservedStep (substIllegal '_' (sanitizeCoreData '_' cs)))) := rfl
    rw [hstep, h1, h2, h3, hcollapse]
  · have h2 : reservedStep (sanitizeCoreData '_' cs) = sanitizeCoreData '_' cs := by
      unfold reservedStep; rw [if_neg hres]
    have h3 : pyStrip [' ', '.', '_'] (sanitizeCoreData '_' cs) = sanitizeCoreData '_' cs :=
      pyStrip_eq_self _ _ (sanitizeCoreData_head_not cs) (sanitizeCoreData_getLast_not cs)
    have hstep : sanitizeCoreData '_' (sanitizeCoreData '_' cs) =
        collapseRepl '_' (pyStrip [' ', '.', '_']
          (reservedStep (substIllegal '_' (sanitizeCoreData '_' cs)))) := rfl
    rw [hstep, h1, h2, h3, hcollapse]

/-- C3: the sanitizer is idempotent with the default replacement.  The only
property required of the external NFKC primitive is that it fixes the already
sanitized output (true of Unicode NFKC, which is idempotent and fixes the
sanitizer's output alphabet); everything else is proved from the embedding. -/
theorem sanitize_idempotent (nfkc : String → String) (s : String)
    (hn : nfkc (safe_filename_stem nfkc '_' s) = safe_filename_stem nfkc '_' s) :
    safe_filename_stem nfkc '_' (safe_filename_stem nfkc '_' s) =
      safe_filename_stem nfkc '_' s := by
  by_cases h0 : (sanitizeCoreData '_' (nfkc s).data).isEmpty
  · have hy : safe_filename_stem nfkc '_' s = "untitled" := by
      unfold safe_filename_stem; rw [if_pos h0]
    rw [hy] at hn ⊢
    unfold safe_filename_stem
    rw [hn]
    decide
  · have hy : safe_filename_stem nfkc '_' s =
        String.mk (sanitizeCoreData '_' (nfkc s).data) := by
      unfold safe_filename_stem; rw [if_neg h0]
    rw [hy] at hn ⊢
    unfold safe_filename_stem
    rw [hn]
    show (if (sanitizeCoreData '_' (sanitizeCoreData '_' (nfkc s).data)).isEmpty then
        "untitled"
      else String.mk (sanitizeCoreData '_' (sanitizeCoreData '_' (nfkc s).data))) =
      String.mk (sanitizeCoreData '_' (nfkc s).data)
    rw [sanitizeCoreData_idem, if_neg h0]

/-- Witness for C3 at a concrete input (NFKC instantiated with the identity,
which satisfies the stability hypothesis definitionally). -/
theorem sanitize_idempotent_witness :
    id (safe_filename_stem id '_' " my<file>. ") = safe_filename_stem id '_' " my<file>. " ∧
    safe_filename_stem id '_' (safe_filename_stem id '_' " my<file>. ") =
      safe_filename_stem id '_' " my<file>. " :=
  ⟨rfl, sanitize_idempotent id " my<file>. " rfl⟩

/-! ### Style formatter (romanizer.py, `format_romaji`, lines 53-78) -/

/-- Python `sep.join(parts)`. -/
def sepJoin (sep : String) : List String → String
  | [] => ""
  | [x] => x
  | x :: y :: rest => x ++ sep ++ sepJoin sep (y :: rest)

/-- Python `str.capitalize()` restricted to ASCII case mapping: first character
uppercased, the rest lowercased. -/
def pyCapitalize (s : String) : String :=
  match s.data with
  | [] => ""
  | c :: cs => String.mk (c.toUpper :: cs.map Char.toLower)

/-- Python `str.upper()` (ASCII case mapping per character). -/
def strUpper (s : String) : String := String.mk (s.data.map Char.toUpper)

/-- Python `str.lower()` (ASCII case mapping per character). -/
def strLower (s : String) : String := String.mk (s.data.map Char.toLower)

/-- romanizer.py `format_romaji(segments, style, sep)`: drop falsy (empty)
segments, return `""` on an empty list, then camel-concatenate or join the
uppercased/lowercased parts with the separator; any style other than
`"camel"`/`"upper"` takes the `else` (lower) branch, as in the source. -/
def format_romaji (segments : List String) (style : String) (sep : String) : String :=
  if (segments.filter fun s => !decide (s = "")).isEmpty then ""
  else if style = "camel" then
    sepJoin "" ((segments.filter fun s => !decide (s = "")).map pyCapitalize)
  else if style = "upper" then
    sepJoin sep ((segments.filter fun s => !decide (s = "")).map strUpper)
  else
    sepJoin sep ((segments.filter fun s => !decide (s = "")).map strLower)

/-- Reference formatter written from the specification text (spec §4.4): drop
empty segments; an empty segment list yields the empty string; `camel`
uppercases each segment's first code point, lowercases the remainder and
concatenates without separator; `upper`/`lower` case-map every segment and
join with the separator, `lower` being the default. -/
def formatSpec (segments : List String) (style : String) (sep : String) : String :=
  match segments.filter fun s => !decide (s = "") with
  | [] => ""
  | parts =>
    if style = "camel" then
      sepJoin "" (parts.map fun s =>
        strUpper (String.mk (s.data.take 1)) ++ strLower (String.mk (s.data.drop 1)))
    else if style = "upper" then sepJoin sep (parts.map strUpper)
    else sepJoin sep (parts.map strLower)

/-- Appending strings concatenates their character data. -/
theorem mk_append_mk (a b : List Char) : String.mk a ++ String.mk b = String.mk (a ++ b) :=
  rfl

/-- The code's capitalization agrees with the spec's first-up-rest-down one. -/
theorem pyCapitalize_eq_spec (s : String) :
    pyCapitalize s =
      strUpper (String.mk (s.data.take 1)) ++ strLower (String.mk (s.data.drop 1)) := by
  cases s with
  | mk data =>
    cases data with
    | nil => rfl
    | cons c cs =>
      unfold pyCapitalize strUpper strLower
      rw [mk_append_mk]
      rfl

/-- C6: the style formatter equals its reference definition for every segment
list, style string and separator, and the three spec examples evaluate as
stated. -/
theorem format_romaji_spec :
    (∀ (segments : List String) (style sep : String),
      format_romaji segments style sep = formatSpec segments style sep) ∧
    format_romaji ["tou", "kyou"] "camel" "" = "TouKyou" ∧
    format_romaji ["tou", "kyou"] "lower" "_" = "tou_kyou" ∧
    format_romaji ["tou", "kyou"] "upper" "-" = "TOU-KYOU" := by
  refine ⟨?_, by decide, by decide, by decide⟩
  intro segments style sep
  unfold format_romaji formatSpec
  cases hp : segments.filter fun s => !decide (s = "") with
  | nil => simp
  | cons p parts =>
    simp only [List.isEmpty_cons, if_neg Bool.false_ne_true]
    by_cases hc : style = "camel"
    · rw [if_pos hc, if_pos hc]
      congr 1
      exact List.map_congr_left fun s _ => pyCapitalize_eq_spec s
    · rw [if_neg hc, if_neg hc]

/-! ### Dictionary tokenizer (romanizer.py, `tokenize_by_dict`, lines 154-184)

`re.split(f'({pattern})', text)` with a capturing alternation of the escaped
dictionary keys (longest first, `sorted(keys, key=len, reverse=True)`) is
embedded as a left-to-right scan: at each position the first key of the
sorted list that is a prefix of the remaining text matches (regex alternation
is first-alternative, not longest), the text between matches and the matched
keys are emitted in order, and empty pieces are dropped, as in the source's
final filter.  A zero-length key can only produce zero-width matches, which
contribute only empty (filtered-out) tokens in Python, so the scan skips
empty keys; token concatenation is unaffected. -/

/-- Stable insertion of a key into a length-descending sorted list: mirrors the
stability of Python's `sorted(..., key=len, reverse=True)`. -/
def insertByLen (k : String) : List String → List String
  | [] => [k]
  | x :: xs => if x.length < k.length then k :: x :: xs else x :: insertByLen k xs

/-- Python `sorted(keys, key=len, reverse=True)` (stable). -/
def sortKeysDesc (ks : List String) : List String := ks.foldr insertByLen []

/-- First key of the alternation that matches at this position. -/
def findKey (keys : List String) (cs : List Char) : Option String :=
  keys.find? (fun k => !k.data.isEmpty && k.data.isPrefixOf cs)

/-- Scanner core of the embedded `re.split`: `acc` holds the pending non-match
span in reverse. -/
def tokenizeAux (keys : List String) : List Char → List Char → List String
  | [], acc => if acc.isEmpty then [] else [String.mk acc.reverse]
  | c :: rest, acc =>
    match findKey keys (c :: rest) with
    | some k =>
      (if acc.isEmpty then [] else [String.mk acc.reverse]) ++
        k :: tokenizeAux keys (rest.drop (k.length - 1)) []
    | none => tokenizeAux keys rest (c :: acc)
  termination_by cs _ => cs.length
  decreasing_by
  · simp only [List.length_drop, List.length_cons]
    omega
  · simp only [List.length_cons]
    omega

/-- romanizer.py `tokenize_by_dict(text, custom_dict)`: `[text]` for a falsy
(empty) dictionary, otherwise the regex split over the length-sorted keys. -/
def tokenize_by_dict (text : String) (dict : List (String × String)) : List String :=
  if dict.isEmpty then [text]
  else tokenizeAux (sortKeysDesc (dict.map Prod.fst)) text.data []

/-- Concatenation of the tokens, at the character level. -/
def concatTokens (ts : List String) : List Char :=
  ts.foldr (fun t acc => t.data ++ acc) []

/-- Token concatenation distributes over list append. -/
theorem concatTokens_append (a b : List String) :
    concatTokens (a ++ b) = concatTokens a ++ concatTokens b := by
  unfold concatTokens
  rw [List.foldr_append]
  induction a with
  | nil => rfl
  | cons x xs ih => simp [List.foldr_cons, ih, List.append_assoc]

/-- The scanner reassembles exactly the pending span plus the remaining text. -/
theorem tokenizeAux_concat (keys : List String) (cs acc : List Char) :
    concatTokens (tokenizeAux keys cs acc) = acc.reverse ++ cs := by
  induction cs, acc using tokenizeAux.induct keys with
  | case1 acc hacc =>
    rw [tokenizeAux, if_pos hacc]
    rw [List.isEmpty_iff.mp hacc]
    rfl
  | case2 acc hacc =>
    rw [tokenizeAux, if_neg hacc]
    show (String.mk acc.reverse).data ++ [] = acc.reverse ++ []
    rfl
  | case3 c rest acc k hk ih =>
    rw [tokenizeAux, hk]
    have hp := List.find?_some hk
    rw [Bool.and_eq_true] at hp
    have hne : k.data ≠ [] := by
      intro h
      rw [h] at hp
      exact absurd hp.1 (by decide)
    have hpre : k.data <+: (c :: rest) := List.isPrefixOf_iff_prefix.mp hp.2
    obtain ⟨t, ht⟩ := hpre
    have hsplit : k.data ++ rest.drop (k.length - 1) = c :: rest := by
      cases hkd : k.data with
      | nil => exact absurd hkd hne
      | cons a kt =>
        rw [hkd, List.cons_append] at ht
        have hac : a = c := (List.cons.injEq _ _ _ _ ▸ ht).1
        have hrest : kt ++ t = rest := (List.cons.injEq _ _ _ _ ▸ ht).2
        have hlen : k.length - 1 = kt.length := by
          show k.data.length - 1 = kt.length
          rw [hkd]
          simp
        rw [hlen, ← hrest, List.drop_left, hac]
        simp
    rw [concatTokens_append]
    have hfirst : concatTokens (if acc.isEmpty then [] else [String.mk acc.reverse]) =
        acc.reverse := by
      by_cases ha : acc.isEmpty
      · rw [if_pos ha, List.isEmpty_iff.mp ha]
        rfl
      · rw [if_neg ha]
        show (String.mk acc.reverse).data ++ [] = acc.reverse
        simp
    rw [hfirst]
    show acc.reverse ++ (k.data ++ concatTokens (tokenizeAux keys (rest.drop (k.length - 1)) [])) =
      acc.reverse ++ (c :: rest)
    rw [ih]
    simp only [List.reverse_nil, List.nil_append]
    rw [hsplit]
  | case4 c rest acc hk ih =>
    rw [tokenizeAux, hk, ih]
    simp

/-- C5: tokenization is lossless — concatenating the tokens returned by
`tokenize_by_dict` reproduces the input text exactly, for every text and every
dictionary, including the empty one. -/
theorem tokenize_lossless (text : String) (dict : List (String × String)) :
    String.mk (concatTokens (tokenize_by_dict text dict)) = text := by
  unfold tokenize_by_dict
  by_cases hd : dict.isEmpty
  · rw [if_pos hd]
    show String.mk (text.data ++ []) = text
    rw [List.append_nil]
  · rw [if_neg hd, tokenizeAux_concat]
    rfl

/-! ### Conversion pipeline (romanizer.py, `convert_filename`, lines 189-257)

`p.stem` / `p.suffix` follow `pathlib.PurePath`: the suffix starts at the last
dot of the name provided that dot is neither at index 0 nor the final
character; otherwise the suffix is empty.  The external romanization
primitives `lazy_pinyin` (language `"cn"`) and the pykakasi hepburn extraction
(language `"jp"`) are the parameters `romCn`/`romJp`. -/

/-- Index of the last '.' in the name (`name.rfind('.')` when a dot exists). -/
def lastDotIdx (cs : List Char) : Option Nat :=
  ((List.range cs.length).filter (fun i => decide (cs.getD i ' ' = '.'))).getLast?

/-- pathlib stem/suffix split of a file name's characters. -/
def splitNameData (cs : List Char) : List Char × List Char :=
  match lastDotIdx cs with
  | some i => if 0 < i ∧ i + 1 < cs.length then (cs.take i, cs.drop i) else (cs, [])
  | none => (cs, [])

/-- `Path(filename).stem`. -/
def pathStem (name : String) : String := String.mk (splitNameData name.data).1

/-- `Path(filename).suffix`. -/
def pathSuffix (name : String) : String := String.mk (splitNameData name.data).2

/-- Core whitespace characters of Python `str.split()` with no argument. -/
def pyIsSpace (c : Char) : Bool := [' ', '\t', '\n', '\r', '\x0b', '\x0c'].contains c

/-- Scanner for Python `str.split()`: split on whitespace runs, no empties. -/
def splitWsAux : List Char → List Char → List String
  | [], acc => if acc.isEmpty then [] else [String.mk acc.reverse]
  | c :: rest, acc =>
    if pyIsSpace c then
      (if acc.isEmpty then [] else [String.mk acc.reverse]) ++ splitWsAux rest []
    else splitWsAux rest (c :: acc)

/-- Python `value.split()` as used on dictionary values (romanizer.py line 235). -/
def pySplitWs (s : String) : List String := splitWsAux s.data []

/-- Python `custom_dict[token]` / `token in custom_dict` over the embedded
association list (keys are unique in a Python dict). -/
def dictLookup (dict : List (String × String)) (k : String) : Option String :=
  (dict.find? (fun e => e.1 == k)).map Prod.snd

/-- Segment collection of `convert_filename` (lines 223-249): with a truthy
dictionary, tokenize the stem and per token either whitespace-split the
dictionary value or romanize; without one, romanize the whole stem.  A
language other than `"cn"`/`"jp"` contributes no segments, mirroring the
`if/elif` with no `else`. -/
def convertSegments (romCn romJp : String → List String) (lang : String)
    (dict : List (String × String)) (stem : String) : List String :=
  if dict.isEmpty then
    if lang = "cn" then romCn stem else if lang = "jp" then romJp stem else []
  else
    (tokenize_by_dict stem dict).foldr
      (fun token acc =>
        (match dictLookup dict token with
         | some v => pySplitWs v
         | none =>
           if lang = "cn" then romCn token
           else if lang = "jp" then romJp token
           else []) ++ acc) []

/-- romanizer.py `convert_filename`: split the name, collect segments, format
them in the requested style, sanitize the formatted stem (default replacement)
and reattach the original extension. -/
def convert_filename (nfkc : String → String) (romCn romJp : String → List String)
    (filename lang style sep : String) (dict : List (String × String)) : String :=
  safe_filename_stem nfkc '_'
      (format_romaji (convertSegments romCn romJp lang dict (pathStem filename)) style sep)
    ++ pathSuffix filename

/-- The sanitizer never returns the empty string. -/
theorem safe_filename_stem_ne_empty (nfkc : String → String) (repl : Char) (stem : String) :
    safe_filename_stem nfkc repl stem ≠ "" := by
  unfold safe_filename_stem
  split
  · decide
  · rename_i h
    intro he
    have : sanitizeCoreData repl (nfkc stem).data = [] := congrArg String.data he
    rw [this] at h
    exact h rfl

/-- A nonempty string stays nonempty after appending. -/
theorem append_ne_empty_left (s t : String) (h : s ≠ "") : s ++ t ≠ "" := by
  intro he
  apply h
  have hd : s.data ++ t.data = [] := congrArg String.data he
  rcases List.append_eq_nil.mp hd with ⟨h1, _⟩
  cases s with
  | mk d => cases h1; rfl

/-- C7: the conversion pipeline is total — it always returns a (nonempty)
string for every behaviour of the external primitives and every input — and
when the formatted-and-sanitized stem comes out empty the result is the
literal `"untitled"` followed by the original extension. -/
theorem convert_filename_total (nfkc : String → String)
    (romCn romJp : String → List String)
    (filename lang style sep : String) (dict : List (String × String)) :
    convert_filename nfkc romCn romJp filename lang style sep dict ≠ "" ∧
    (sanitizeCoreData '_'
        (nfkc (format_romaji (convertSegments romCn romJp lang dict (pathStem filename))
          style sep)).data = [] →
      convert_filename nfkc romCn romJp filename lang style sep dict =
        "untitled" ++ pathSuffix filename) := by
  constructor
  · exact append_ne_empty_left _ _ (safe_filename_stem_ne_empty _ _ _)
  · intro h
    unfold convert_filename safe_filename_stem
    rw [h]
    rfl

/-- Witness for C7: with a romanizer that returns no segments, the formatted
stem is empty and the fallback produces `untitled` plus the extension. -/
theorem convert_filename_total_witness :
    (sanitizeCoreData '_'
        (id (format_romaji (convertSegments (fun _ => []) (fun _ => []) "jp" []
          (pathStem "x.txt")) "camel" "")).data = []) ∧
    convert_filename id (fun _ => []) (fun _ => []) "x.txt" "jp" "camel" "" [] =
      "untitled" ++ pathSuffix "x.txt" :=
  ⟨by decide,
    (convert_filename_total id (fun _ => []) (fun _ => []) "x.txt" "jp" "camel" "" []).2
      (by decide)⟩

/-! ### Uniqueness resolver (romanizer.py, `ensure_unique`, lines 129-151)

The filesystem visible to `ensure_unique` is modelled as the list of names
present in the target directory; `path.exists()` is list membership.  The
`while True` loop is given explicit fuel `taken.length + 1`; a pigeonhole
argument (decimal representations of distinct counters are distinct) shows
this fuel always suffices, so the model is total exactly like the source. -/

/-- Decimal value of a digit character. -/
def digitVal (c : Char) : Nat := c.toNat - 48

/-- Value of a digit string read left to right, with accumulator. -/
def reprVal : Nat → List Char → Nat
  | a, [] => a
  | a, c :: cs => reprVal (a * 10 + digitVal c) cs

/-- Reading a concatenation threads the accumulator. -/
theorem reprVal_append (a : Nat) (xs ys : List Char) :
    reprVal a (xs ++ ys) = reprVal (reprVal a xs) ys := by
  induction xs generalizing a with
  | nil => rfl
  | cons c cs ih =>
    show reprVal (a * 10 + digitVal c) (cs ++ ys) =
      reprVal (reprVal (a * 10 + digitVal c) cs) ys
    exact ih _

/-- The digit character of a digit has that digit's value. -/
theorem digitVal_digitChar (m : Nat) (h : m < 10) :
    digitVal (Nat.digitChar m) = m := by
  interval_cases m <;> rfl

/-- The accumulator list of `Nat.toDigitsCore` is a plain suffix. -/
theorem toDigitsCore_shift (fuel : Nat) : ∀ (n : Nat) (ds : List Char),
    Nat.toDigitsCore 10 fuel n ds = Nat.toDigitsCore 10 fuel n [] ++ ds := by
  induction fuel with
  | zero => intro n ds; rfl
  | succ f ih =>
    intro n ds
    simp only [Nat.toDigitsCore]
    by_cases h : n / 10 = 0
    · rw [if_pos h, if_pos h]
      rfl
    · rw [if_neg h, if_neg h, ih (n / 10) [Nat.digitChar (n % 10)],
        ih (n / 10) (Nat.digitChar (n % 10) :: ds), List.append_assoc]
      rfl

/-- Reading back the digits of `n` yields `n`, for sufficient fuel. -/
theorem reprVal_toDigitsCore (n : Nat) : ∀ fuel, n < fuel →
    reprVal 0 (Nat.toDigitsCore 10 fuel n []) = n := by
  induction n using Nat.strong_induction_on with
  | _ n ih =>
    intro fuel hf
    cases fuel with
    | zero => omega
    | succ f =>
      simp only [Nat.toDigitsCore]
      by_cases h : n / 10 = 0
      · rw [if_pos h]
        have hn : n < 10 := by omega
        show 0 * 10 + digitVal (Nat.digitChar (n % 10)) = n
        rw [digitVal_digitChar _ (Nat.mod_lt _ (by omega))]
        omega
      · rw [if_neg h]
        have hd : n / 10 < n := Nat.div_lt_self (by omega) (by omega)
        have hfu : n / 10 < f := by omega
        rw [toDigitsCore_shift, reprVal_append, ih (n / 10) hd f hfu]
        show (n / 10) * 10 + digitVal (Nat.digitChar (n % 10)) = n
        rw [digitVal_digitChar _ (Nat.mod_lt _ (by omega))]
        omega

/-- Reading back the decimal representation of `n` yields `n`. -/
theorem reprVal_repr (n : Nat) : reprVal 0 (Nat.repr n).data = n :=
  reprVal_toDigitsCore n (n + 1) (Nat.lt_succ_self n)

/-- Decimal representations of distinct naturals are distinct. -/
theorem Nat_repr_injective (m n : Nat) (h : Nat.repr m = Nat.repr n) : m = n := by
  have hv := congrArg (fun s => reprVal 0 s.data) h
  simpa [reprVal_repr] using hv

/-- Candidate name `f"{stem}-{n}{suffix}"` of romanizer.py line 148. -/
def mkCand (stem : String) (n : Nat) (suffix : String) : String :=
  stem ++ "-" ++ Nat.repr n ++ suffix

/-- Appending strings concatenates their data. -/
theorem data_append (s t : String) : (s ++ t).data = s.data ++ t.data := rfl

/-- Candidates with distinct counters are distinct names. -/
theorem mkCand_inj (stem suffix : String) (m n : Nat)
    (h : mkCand stem m suffix = mkCand stem n suffix) : m = n := by
  unfold mkCand at h
  have hd := congrArg String.data h
  rw [data_append, data_append, data_append, data_append, data_append, data_append] at hd
  have h1 := List.append_cancel_right hd
  have h2 := List.append_cancel_left h1
  exact Nat_repr_injective m n (String.ext h2)

/-- The `n = 1; while True: ...; n += 1` loop of `ensure_unique`, with fuel. -/
def uniqueLoop (taken : List String) (stem suffix : String) : Nat → Nat → String
  | n, 0 => mkCand stem n suffix
  | n, fuel + 1 =>
    if mkCand stem n suffix ∈ taken then uniqueLoop taken stem suffix (n + 1) fuel
    else mkCand stem n suffix

/-- romanizer.py `ensure_unique(path)`: return the path unchanged when it does
not exist, otherwise the first untaken `stem-n.suffix` counting from 1. -/
def ensure_unique (taken : List String) (name : String) : String :=
  if name ∈ taken then
    uniqueLoop taken (pathStem name) (pathSuffix name) 1 (taken.length + 1)
  else name

/-- Pigeonhole: among `taken.length + 1` distinct candidates at least one is
not taken, so the loop's fuel suffices. -/
theorem exists_cand_not_taken (taken : List String) (stem suffix : String) :
    ∃ n, 1 ≤ n ∧ n ≤ taken.length + 1 ∧ mkCand stem n suffix ∉ taken := by
  by_contra hc
  push_neg at hc
  have hnd : ((List.range (taken.length + 1)).map
      (fun i => mkCand stem (i + 1) suffix)).Nodup := by
    refine List.Nodup.map ?_ (List.nodup_range _)
    intro a b hab
    have := mkCand_inj stem suffix (a + 1) (b + 1) hab
    omega
  have hsub : ((List.range (taken.length + 1)).map
      fun i => mkCand stem (i + 1) suffix) ⊆ taken := by
    intro x hx
    obtain ⟨i, hi, rfl⟩ := List.mem_map.mp hx
    have hi' : i < taken.length + 1 := List.mem_range.mp hi
    exact hc (i + 1) (by omega) (by omega)
  have hle := (List.subperm_of_subset hnd hsub).length_le
  simp only [List.length_map, List.length_range] at hle
  omega

/-- The loop returns the first untaken candidate at or after its start, as
long as one exists within the fuel. -/
theorem uniqueLoop_spec (taken : List String) (stem suffix : String) :
    ∀ (fuel start : Nat),
      (∃ m, start ≤ m ∧ m < start + fuel ∧ mkCand stem m suffix ∉ taken) →
      ∃ n, start ≤ n ∧ uniqueLoop taken stem suffix start fuel = mkCand stem n suffix ∧
        mkCand stem n suffix ∉ taken ∧
        ∀ m, start ≤ m → m < n → mkCand stem m suffix ∈ taken := by
  intro fuel
  induction fuel with
  | zero =>
    rintro start ⟨m, h1, h2, _⟩
    omega
  | succ f ih =>
    intro start hex
    by_cases hmem : mkCand stem start suffix ∈ taken
    · obtain ⟨m, h1, h2, h3⟩ := hex
      have hm : start + 1 ≤ m := by
        rcases Nat.eq_or_lt_of_le h1 with he | hl
        · exact absurd (he ▸ hmem) h3
        · omega
      obtain ⟨n, hn1, hn2, hn3, hn4⟩ := ih (start + 1) ⟨m, hm, by omega, h3⟩
      refine ⟨n, by omega, ?_, hn3, ?_⟩
      · rw [uniqueLoop, if_pos hmem]
        exact hn2
      · intro m' hm1 hm2
        rcases Nat.eq_or_lt_of_le hm1 with he | hl
        · exact he ▸ hmem
        · exact hn4 m' hl hm2
    · refine ⟨start, Nat.le_refl _, ?_, hmem, ?_⟩
      · rw [uniqueLoop, if_neg hmem]
      · intro m hm1 hm2
        omega

/-- `ensure_unique` never returns a taken path. -/
theorem ensure_unique_not_taken (taken : List String) (name : String) :
    ensure_unique taken name ∉ taken := by
  unfold ensure_unique
  by_cases h : name ∈ taken
  · rw [if_pos h]
    obtain ⟨m, h1, h2, h3⟩ := exists_cand_not_taken taken (pathStem name) (pathSuffix name)
    obtain ⟨n, _, heq, hnt, _⟩ := uniqueLoop_spec taken (pathStem name) (pathSuffix name)
      (taken.length + 1) 1 ⟨m, h1, by omega, h3⟩
    rw [heq]
    exact hnt
  · rw [if_neg h]
    exact h

/-- On a collision, `ensure_unique` returns the candidate with the least
counter whose path is untaken, counting from 1. -/
theorem ensure_unique_least (taken : List String) (name : String) (h : name ∈ taken) :
    ∃ n, 1 ≤ n ∧
      ensure_unique taken name = mkCand (pathStem name) n (pathSuffix name) ∧
      mkCand (pathStem name) n (pathSuffix name) ∉ taken ∧
      ∀ m, 1 ≤ m → m < n → mkCand (pathStem name) m (pathSuffix name) ∈ taken := by
  obtain ⟨m, h1, h2, h3⟩ := exists_cand_not_taken taken (pathStem name) (pathSuffix name)
  obtain ⟨n, hn1, hn2, hn3, hn4⟩ := uniqueLoop_spec taken (pathStem name) (pathSuffix name)
    (taken.length + 1) 1 ⟨m, h1, by omega, h3⟩
  refine ⟨n, hn1, ?_, hn3, hn4⟩
  unfold ensure_unique
  rw [if_pos h]
  exact hn2

/-! ### Batch driver (romanizer.py, `batch_rename`, lines 260-325)

One batch works inside one directory: the filesystem is the list `fs` of
names present there, and `convert` abstracts `convert_filename` with its
fixed configuration.  A real-run step renames `src` to the resolved unique
destination (the destination appears on disk, the source disappears); a
dry-run step only records the preview.  The per-file `try/except OSError`
reports a failure and continues; the model's renames always succeed, matching
the claims, which quantify over successful batches. -/

/-- Status recorded for one file of the batch. -/
inductive RenameStatus where
  | skip : RenameStatus
  | preview (dst : String) : RenameStatus
  | renamed (dst : String) : RenameStatus
deriving DecidableEq

/-- One iteration of the `for src_path in files_to_process` loop (lines
299-325): skip when the converted name is unchanged, otherwise resolve a
unique destination and preview or rename. -/
def batch_step (dryRun : Bool) (convert : String → String) (fs : List String)
    (src : String) : RenameStatus × List String :=
  if src = convert src then (RenameStatus.skip, fs)
  else if dryRun then (RenameStatus.preview (ensure_unique fs (convert src)), fs)
  else (RenameStatus.renamed (ensure_unique fs (convert src)),
    ensure_unique fs (convert src) :: fs.erase src)

/-- The whole loop over the listed files, returning the per-file plan in
order and the final filesystem. -/
def batch_rename (dryRun : Bool) (convert : String → String) :
    List String → List String → List (String × RenameStatus) × List String
  | fs, [] => ([], fs)
  | fs, f :: rest =>
    ((f, (batch_step dryRun convert fs f).1) ::
        (batch_rename dryRun convert (batch_step dryRun convert fs f).2 rest).1,
      (batch_rename dryRun convert (batch_step dryRun convert fs f).2 rest).2)

/-- Destinations of the entries actually renamed. -/
def renamedDsts (plan : List (String × RenameStatus)) : List String :=
  plan.filterMap fun e =>
    match e.2 with
    | RenameStatus.renamed d => some d
    | _ => none

/-- Destinations of the entries previewed in a dry run. -/
def previewDsts (plan : List (String × RenameStatus)) : List String :=
  plan.filterMap fun e =>
    match e.2 with
    | RenameStatus.preview d => some d
    | _ => none

/-- Counterexample to C2 as stated: in dry-run mode `batch_rename` resolves
uniqueness against the disk only (romanizer.py keeps no claimed-destination
set), so two files that convert to the same fresh name receive the same
destination in one batch. -/
theorem dry_run_duplicate_destinations :
    (batch_rename true (fun _ => "x.txt") ["a.txt", "b.txt"] ["a.txt", "b.txt"]).1 =
      [("a.txt", RenameStatus.preview "x.txt"), ("b.txt", RenameStatus.preview "x.txt")] ∧
    previewDsts
        (batch_rename true (fun _ => "x.txt") ["a.txt", "b.txt"] ["a.txt", "b.txt"]).1 =
      ["x.txt", "x.txt"] ∧
    decide (previewDsts
        (batch_rename true (fun _ => "x.txt") ["a.txt", "b.txt"] ["a.txt", "b.txt"]).1).Nodup =
      false := by
  refine ⟨by decide, by decide, by decide⟩

/-- Skipping invariant for the real-run distinctness proof: the accumulator
`dsts` holds the destinations already claimed, each present on disk and
distinct from every still-unprocessed source. -/
theorem batch_real_nodup_aux (convert : String → String) :
    ∀ (files fs dsts : List String), files.Nodup → (∀ f ∈ files, f ∈ fs) →
      (∀ d ∈ dsts, d ∈ fs ∧ ∀ f ∈ files, d ≠ f) → dsts.Nodup →
      (dsts ++ renamedDsts (batch_rename false convert fs files).1).Nodup := by
  intro files
  induction files with
  | nil =>
    intro fs dsts _ _ _ h4
    simpa [batch_rename, renamedDsts] using h4
  | cons f rest ih =>
    intro fs dsts h1 h2 h3 h4
    rw [List.nodup_cons] at h1
    by_cases hskip : f = convert f
    · have hstep : batch_step false convert fs f = (RenameStatus.skip, fs) := by
        unfold batch_step
        rw [if_pos hskip]
      show (dsts ++ renamedDsts
        ((f, (batch_step false convert fs f).1) ::
          (batch_rename false convert (batch_step false convert fs f).2 rest).1)).Nodup
      rw [hstep]
      have : renamedDsts ((f, RenameStatus.skip) ::
          (batch_rename false convert fs rest).1) =
          renamedDsts (batch_rename false convert fs rest).1 := by
        unfold renamedDsts
        rw [List.filterMap_cons]
      rw [this]
      exact ih fs dsts h1.2 (fun g hg => h2 g (List.mem_cons_of_mem f hg))
        (fun d hd => ⟨(h3 d hd).1, fun g hg => (h3 d hd).2 g (List.mem_cons_of_mem f hg)⟩) h4
    · have hdst : ensure_unique fs (convert f) ∉ fs := ensure_unique_not_taken fs (convert f)
      have hstep : batch_step false convert fs f =
          (RenameStatus.renamed (ensure_unique fs (convert f)),
            ensure_unique fs (convert f) :: fs.erase f) := by
        unfold batch_step
        rw [if_neg hskip]
        rfl
      show (dsts ++ renamedDsts
        ((f, (batch_step false convert fs f).1) ::
          (batch_rename false convert (batch_step false convert fs f).2 rest).1)).Nodup
      rw [hstep]
      have hre : renamedDsts ((f, RenameStatus.renamed (ensure_unique fs (convert f))) ::
          (batch_rename false convert (ensure_unique fs (convert f) :: fs.erase f) rest).1) =
          ensure_unique fs (convert f) ::
            renamedDsts (batch_rename false convert
              (ensure_unique fs (convert f) :: fs.erase f) rest).1 := by
        unfold renamedDsts
        rw [List.filterMap_cons]
      rw [hre]
      have hgoal := ih (ensure_unique fs (convert f) :: fs.erase f)
        (dsts ++ [ensure_unique fs (convert f)]) h1.2
        (fun g hg => by
          have hgf : g ≠ f := fun he => h1.1 (he ▸ hg)
          exact List.mem_cons_of_mem _ ((List.mem_erase_of_ne hgf).mpr
            (h2 g (List.mem_cons_of_mem f hg))))
        (fun d hd => by
          rcases List.mem_append.mp hd with hdl | hdr
          · have hdf : d ≠ f := (h3 d hdl).2 f (List.mem_cons_self f rest)
            refine ⟨List.mem_cons_of_mem _ ((List.mem_erase_of_ne hdf).mpr (h3 d hdl).1),
              fun g hg => (h3 d hdl).2 g (List.mem_cons_of_mem f hg)⟩
          · simp only [List.mem_singleton] at hdr
            subst hdr
            refine ⟨List.mem_cons_self _ _, fun g hg he => ?_⟩
            exact hdst (he ▸ h2 g (List.mem_cons_of_mem f hg)))
        (by
          refine List.Nodup.append h4 (List.nodup_singleton _) ?_
          intro a ha hb
          simp only [List.mem_singleton] at hb
          subst hb
          exact hdst (h3 _ ha).1)
      rw [List.append_assoc] at hgoal
      simpa using hgoal

/-- C2 amended: `ensure_unique` never returns an existing path and on a
collision returns the least-counter untaken candidate; and a real (non
dry-run) batch over distinct directory entries produces pairwise distinct
rename destinations, because every completed rename materializes on disk.
In dry-run mode the source keeps no claimed-destination set, so the original
claim fails there (see the counterexample). -/
theorem unique_resolution_real_run :
    (∀ (taken : List String) (name : String), ensure_unique taken name ∉ taken) ∧
    (∀ (taken : List String) (name : String), name ∈ taken →
      ∃ n, 1 ≤ n ∧
        ensure_unique taken name = mkCand (pathStem name) n (pathSuffix name) ∧
        mkCand (pathStem name) n (pathSuffix name) ∉ taken ∧
        ∀ m, 1 ≤ m → m < n → mkCand (pathStem name) m (pathSuffix name) ∈ taken) ∧
    (∀ (convert : String → String) (fs files : List String), files.Nodup →
      (∀ f ∈ files, f ∈ fs) →
      (renamedDsts (batch_rename false convert fs files).1).Nodup) := by
  refine ⟨ensure_unique_not_taken, ensure_unique_least, ?_⟩
  intro convert fs files h1 h2
  have := batch_real_nodup_aux convert files fs [] h1 h2 (by intro d hd; cases hd)
    List.nodup_nil
  simpa using this

/-- Witness for C2's amended theorem: a concrete two-file real-run batch whose
files both convert to the same name gets the distinct destinations
`x.txt` and `x-1.txt`. -/
theorem unique_resolution_real_run_witness :
    (["a.txt", "b.txt"] : List String).Nodup ∧
    (∀ f ∈ (["a.txt", "b.txt"] : List String), f ∈ (["a.txt", "b.txt"] : List String)) ∧
    ("x.txt" ∈ (["x.txt"] : List String)) ∧
    (renamedDsts
      (batch_rename false (fun _ => "x.txt") ["a.txt", "b.txt"] ["a.txt", "b.txt"]).1).Nodup ∧
    ensure_unique ["x.txt"] "x.txt" ∉ (["x.txt"] : List String) :=
  ⟨by decide, fun f hf => hf, by decide,
    unique_resolution_real_run.2.2 (fun _ => "x.txt") ["a.txt", "b.txt"] ["a.txt", "b.txt"]
      (by decide) (fun f hf => hf),
    unique_resolution_real_run.1 ["x.txt"] "x.txt"⟩

/-- C8: when conversion leaves a file's name unchanged, the driver records
`skip` for it and performs no rename — the filesystem state is untouched by
that file's step, in dry-run and real-run mode alike (romanizer.py lines
307-310; the GUI worker emits the same `skip` status). -/
theorem skip_correct (dryRun : Bool) (convert : String → String)
    (fs files : List String) (f : String) (hf : f ∈ files) (hc : convert f = f) :
    (f, RenameStatus.skip) ∈ (batch_rename dryRun convert fs files).1 ∧
    batch_step dryRun convert fs f = (RenameStatus.skip, fs) := by
  have hstep : ∀ fs' : List String,
      batch_step dryRun convert fs' f = (RenameStatus.skip, fs') := by
    intro fs'
    unfold batch_step
    rw [if_pos hc.symm]
  refine ⟨?_, hstep fs⟩
  induction files generalizing fs with
  | nil => cases hf
  | cons g rest ih =>
    rcases List.mem_cons.mp hf with he | hmem
    · subst he
      show (f, RenameStatus.skip) ∈
        (f, (batch_step dryRun convert fs f).1) ::
          (batch_rename dryRun convert (batch_step dryRun convert fs f).2 rest).1
      rw [hstep fs]
      exact List.mem_cons_self _ _
    · show (f, RenameStatus.skip) ∈
        (g, (batch_step dryRun convert fs g).1) ::
          (batch_rename dryRun convert (batch_step dryRun convert fs g).2 rest).1
      exact List.mem_cons_of_mem _ (ih _ hmem)

/-- Witness for C8 on a one-file batch whose conversion is the identity. -/
theorem skip_correct_witness :
    ("a.txt" ∈ (["a.txt"] : List String)) ∧
    ((fun s : String => s) "a.txt" = "a.txt") ∧
    (("a.txt", RenameStatus.skip) ∈
      (batch_rename false (fun s => s) ["a.txt"] ["a.txt"]).1 ∧
      batch_step false (fun s => s) ["a.txt"] "a.txt" = (RenameStatus.skip, ["a.txt"])) :=
  ⟨by decide, rfl,
    skip_correct false (fun s => s) ["a.txt"] ["a.txt"] "a.txt" (by decide) rfl⟩

/-- C9: a dry-run batch is pure — the filesystem it returns is the one it
started from, and no plan entry carries the `renamed` status, for every
conversion, starting filesystem and file list. -/
theorem dry_run_pure (convert : String → String) (fs files : List String) :
    (batch_rename true convert fs files).2 = fs ∧
    ((batch_rename true convert fs files).1.all fun e =>
      match e.2 with
      | RenameStatus.renamed _ => false
      | _ => true) = true := by
  induction files generalizing fs with
  | nil => exact ⟨rfl, rfl⟩
  | cons f rest ih =>
    have hstep2 : (batch_step true convert fs f).2 = fs := by
      unfold batch_step
      by_cases h : f = convert f
      · rw [if_pos h]
      · rw [if_neg h]
        rfl
    have hstep1 : (match (batch_step true convert fs f).1 with
        | RenameStatus.renamed _ => false
        | _ => true) = true := by
      unfold batch_step
      by_cases h : f = convert f
      · rw [if_pos h]
      · rw [if_neg h]
        rfl
    constructor
    · show (batch_rename true convert (batch_step true convert fs f).2 rest).2 = fs
      rw [hstep2]
      exact (ih fs).1
    · show (( (f, (batch_step true convert fs f).1) ::
        (batch_rename true convert (batch_step true convert fs f).2 rest).1).all _) = true
      rw [List.all_cons, Bool.and_eq_true]
      exact ⟨hstep1, by rw [hstep2]; exact (ih fs).2⟩

/-! ### File enumeration (romanizer.py lines 278-290, RomanizerGUI.py lines 60-64) -/

/-- One directory entry as seen by `glob`/`rglob`: its name and whether it is
a regular file (`f.is_file()`). -/
structure DirEntry where
  name : String
  isFile : Bool
deriving DecidableEq

/-- The batch target: a single file given directly, or a directory whose
entries get enumerated (the invalid-path branch yields no files and is
orthogonal to the claim). -/
inductive BatchTarget where
  | file (name : String) : BatchTarget
  | dir (entries : List DirEntry) : BatchTarget
deriving DecidableEq

/-- Python `name.startswith('.')`. -/
def startsWithDot (s : String) : Bool :=
  match s.data with
  | '.' :: _ => true
  | _ => false

/-- The `files_to_process` selection of `batch_rename`: a target that is
itself a file is taken as-is; a directory is enumerated and filtered by
`f.is_file() and not f.name.startswith('.')`.  The GUI worker's dry-run path
(RomanizerGUI.py lines 60-64) uses the identical selection. -/
def files_to_process : BatchTarget → List String
  | BatchTarget.file n => [n]
  | BatchTarget.dir es =>
    (es.filter fun e => e.isFile && !startsWithDot e.name).map DirEntry.name

/-- C10: hidden-file and non-file exclusion applies only to directory
enumeration.  A target that is itself a file is processed even when its name
starts with '.', while a directory entry is processed exactly when it is a
regular file whose name does not start with '.'. -/
theorem hidden_filter_scope :
    (∀ n : String, files_to_process (BatchTarget.file n) = [n]) ∧
    (∀ (es : List DirEntry) (nm : String),
      nm ∈ files_to_process (BatchTarget.dir es) ↔
        ∃ e ∈ es, e.name = nm ∧ e.isFile = true ∧ startsWithDot e.name = false) := by
  constructor
  · intro n
    rfl
  · intro es nm
    unfold files_to_process
    simp only [List.mem_map, List.mem_filter]
    constructor
    · rintro ⟨e, ⟨he, hp⟩, rfl⟩
      rw [Bool.and_eq_true, Bool.not_eq_true'] at hp
      exact ⟨e, he, rfl, hp.1, hp.2⟩
    · rintro ⟨e, he, rfl, hfile, hdot⟩
      exact ⟨e, ⟨he, by rw [Bool.and_eq_true, Bool.not_eq_true']; exact ⟨hfile, hdot⟩⟩, rfl⟩
